import Mathlib

/-!
# BRindeX indexing core: a shallow embedding with verified properties

This file embeds the parts of the BRindeX (FastFileIndex) indexing core
that the checked properties are about, translated from the Rust sources:

* `src/indexer/usn_monitor.rs` — change types, USN-journal monitor state,
  `resume`, `poll_changes`, `deduplicate_changes`, `apply_changes_batch`;
* `src/db/ops.rs` — `insert_volume`, `get_volume`, `batch_insert_files`,
  `search_files`, `reconstruct_path`;
* `src/db/schema.rs` — the shape of the `volumes` and `files` tables
  (unique keys, nullable columns, column defaults);
* `src/search/query.rs` — `convert_wildcards_to_sql`;
* `src/indexer/fat_reconciler.rs` — the daily offline-volume cleanup
  (its callee `cleanup_old_offline_volumes` is absent from the sources,
  so it is modelled from the specification, as marked below).

Machine integers are embedded as `Int`/`Nat` with explicit two's-complement
casts where the Rust code casts (`as u64`, `as i64`).  The SQLite `files`
table is embedded twice, at the granularity each operation needs: as a
function map keyed by `(volume_id, file_ref)` for the USN change
application, and as a row list (scan order) for inserts, search and path
reconstruction.  Rust `HashMap` iteration order is unspecified, so the
output of `deduplicate_changes` is specified only up to permutation of the
collapsed map's values (`PossibleDedupOutput`).
-/

namespace BRindeX

/-! ## Two's-complement casts (Rust `as u64` / `as i64`) -/

/-- Rust `x as u64` on an `i64` value: the bit pattern read as unsigned. -/
def toU64 (x : Int) : Nat := (x % (2 : Int) ^ 64).toNat

/-- Rust `n as i64` on a `u64` value: the bit pattern read as signed. -/
def toI64 (n : Nat) : Int :=
  if n % 2 ^ 64 < 2 ^ 63 then ((n % 2 ^ 64 : Nat) : Int)
  else ((n % 2 ^ 64 : Nat) : Int) - 2 ^ 64

/-! ## Change model (`usn_monitor.rs`) -/

/-- `ChangeType` from `usn_monitor.rs`. -/
inductive ChangeType where
  | create
  | delete
  | rename
  | modify
deriving DecidableEq, Repr

/-- `UsnChange` from `usn_monitor.rs`.  `file_ref`/`parent_ref` are `i64`. -/
structure UsnChange where
  file_ref : Int
  parent_ref : Int
  name : String
  change_type : ChangeType
  is_dir : Bool
deriving DecidableEq, Repr

/-! ## Deduplication (`deduplicate_changes`)

The Rust function folds the incoming changes into a
`HashMap<i64, UsnChange>` (`final_state`): an incoming `Delete` whose ref
currently maps to a `Create` removes the entry, any other incoming change
overwrites the entry, and at the end `into_values()` is returned.  The map
is embedded as an association list with in-place update, so its entry
*content* is exactly the Rust map's; the `into_values()` enumeration order
is unspecified in Rust, so a possible output is any permutation of the
collapsed values. -/

/-- `HashMap::get` on the association-list embedding of `final_state`. -/
def assocGet : List (Int × UsnChange) → Int → Option UsnChange
  | [], _ => none
  | p :: m, k => if p.1 = k then some p.2 else assocGet m k

/-- `HashMap::remove` on the association-list embedding. -/
def assocRemove : List (Int × UsnChange) → Int → List (Int × UsnChange)
  | [], _ => []
  | p :: m, k => if p.1 = k then assocRemove m k else p :: assocRemove m k

/-- Replace the value stored under a key that is already present. -/
def assocReplace : List (Int × UsnChange) → Int → UsnChange → List (Int × UsnChange)
  | [], _, _ => []
  | p :: m, k, v => if p.1 = k then (k, v) :: assocReplace m k v else p :: assocReplace m k v

/-- `HashMap::insert` on the association-list embedding: replace in place
when the key is present, append otherwise. -/
def assocInsert (m : List (Int × UsnChange)) (k : Int) (v : UsnChange) :
    List (Int × UsnChange) :=
  if (assocGet m k).isSome then assocReplace m k v else m ++ [(k, v)]

/-- One iteration of the `for change in changes` loop of
`deduplicate_changes`. -/
def dedupFold (m : List (Int × UsnChange)) (change : UsnChange) :
    List (Int × UsnChange) :=
  match assocGet m change.file_ref with
  | some existing =>
      if existing.change_type = ChangeType.create ∧
          change.change_type = ChangeType.delete then
        assocRemove m change.file_ref
      else
        assocInsert m change.file_ref change
  | none => assocInsert m change.file_ref change

/-- The `final_state` map of `deduplicate_changes` after the whole batch. -/
def final_state (changes : List UsnChange) : List (Int × UsnChange) :=
  changes.foldl dedupFold []

/-- The collapsed values, in the association list's canonical order. -/
def dedupValues (changes : List UsnChange) : List UsnChange :=
  (final_state changes).map (fun p => p.2)

/-- `deduplicate_changes` returns `final_state.into_values()`; `HashMap`
iteration order is unspecified, so the possible outputs are exactly the
permutations of the collapsed values. -/
def PossibleDedupOutput (changes out : List UsnChange) : Prop :=
  out.Perm (dedupValues changes)

instance (changes out : List UsnChange) : Decidable (PossibleDedupOutput changes out) :=
  inferInstanceAs (Decidable (out.Perm (dedupValues changes)))

/-- The per-ref collapse step implied by the code: an incoming `Delete`
cancels a currently recorded `Create`; otherwise the incoming change wins. -/
def stepPerRef (st : Option UsnChange) (c : UsnChange) : Option UsnChange :=
  match st with
  | some existing =>
      if existing.change_type = ChangeType.create ∧
          c.change_type = ChangeType.delete then none
      else some c
  | none => some c

/-- Sample changes used in the deduplication laws. -/
def mkChange (r : Int) (n : String) (t : ChangeType) : UsnChange :=
  { file_ref := r, parent_ref := 5, name := n, change_type := t, is_dir := false }

/-! ### Association-list lemmas for the `final_state` map -/

theorem assocGet_assocReplace (m : List (Int × UsnChange)) (k : Int) (v : UsnChange)
    (r : Int) :
    assocGet (assocReplace m k v) r
      = if k = r then (assocGet m k).map (fun _ => v) else assocGet m r := by
  induction m with
  | nil => by_cases hkr : k = r <;> simp [assocGet, assocReplace, hkr]
  | cons p m ih =>
      by_cases hp : p.1 = k
      · by_cases hkr : k = r
        · simp [assocReplace, assocGet, hp, hkr]
        · have hpr : ¬p.1 = r := fun h => hkr (hp ▸ h)
          simp [assocReplace, assocGet, hp, hkr, hpr, ih]
      · by_cases hpr : p.1 = r
        · have hkr : ¬k = r := fun h => hp (hpr ▸ h.symm ▸ rfl)
          have hrk : ¬r = k := fun h => hkr h.symm
          simp [assocReplace, assocGet, hp, hkr, hpr, hrk]
        · simp [assocReplace, assocGet, hp, hpr, ih]

theorem assocGet_append_single (m : List (Int × UsnChange)) (k : Int) (v : UsnChange)
    (r : Int) (habs : assocGet m k = none) :
    assocGet (m ++ [(k, v)]) r = if k = r then some v else assocGet m r := by
  induction m with
  | nil => by_cases hkr : k = r <;> simp [assocGet, hkr]
  | cons p m ih =>
      have hp : ¬p.1 = k := by
        intro h
        simp [assocGet, h] at habs
      have htail : assocGet m k = none := by
        simpa [assocGet, hp] using habs
      by_cases hpr : p.1 = r
      · have hkr : ¬k = r := fun h => hp (hpr ▸ h.symm ▸ rfl)
        simp [assocGet, hpr, hkr]
      · simp [assocGet, hpr, ih htail]

theorem assocGet_assocInsert (m : List (Int × UsnChange)) (k : Int) (v : UsnChange)
    (r : Int) :
    assocGet (assocInsert m k v) r = if k = r then some v else assocGet m r := by
  unfold assocInsert
  by_cases hpres : (assocGet m k).isSome = true
  · rcases Option.isSome_iff_exists.mp hpres with ⟨w, hw⟩
    simp [hpres, assocGet_assocReplace, hw]
  · have habs : assocGet m k = none := by
      cases h : assocGet m k <;> simp [h] at hpres ⊢
    simp [hpres, assocGet_append_single m k v r habs]

theorem assocGet_assocRemove (m : List (Int × UsnChange)) (k r : Int) :
    assocGet (assocRemove m k) r = if k = r then none else assocGet m r := by
  induction m with
  | nil => by_cases hkr : k = r <;> simp [assocGet, assocRemove, hkr]
  | cons p m ih =>
      by_cases hp : p.1 = k
      · by_cases hkr : k = r
        · simpa [assocRemove, hp, hkr] using ih
        · have hpr : ¬p.1 = r := fun h => hkr (hp ▸ h)
          simpa [assocRemove, assocGet, hp, hkr, hpr] using ih
      · by_cases hpr : p.1 = r
        · have hkr : ¬k = r := fun h => hp (hpr ▸ h.symm ▸ rfl)
          have hrk : ¬r = k := fun h => hkr h.symm
          simp [assocRemove, assocGet, hp, hpr, hkr, hrk]
        · simp [assocRemove, assocGet, hp, hpr, ih]

theorem assocGet_dedupFold (m : List (Int × UsnChange)) (c : UsnChange) (r : Int) :
    assocGet (dedupFold m c) r
      = if c.file_ref = r then stepPerRef (assocGet m r) c else assocGet m r := by
  unfold dedupFold
  cases hget : assocGet m c.file_ref with
  | none =>
      rw [assocGet_assocInsert]
      by_cases hr : c.file_ref = r
      · subst hr; simp [hget, stepPerRef]
      · simp [hr]
  | some existing =>
      dsimp only
      by_cases hcond : existing.change_type = ChangeType.create ∧
          c.change_type = ChangeType.delete
      · rw [if_pos hcond, assocGet_assocRemove]
        by_cases hr : c.file_ref = r
        · subst hr; simp [stepPerRef, hget, hcond.1, hcond.2]
        · simp [hr]
      · rw [if_neg hcond, assocGet_assocInsert]
        by_cases hr : c.file_ref = r
        · subst hr; simp [stepPerRef, hget, hcond]
        · simp [hr]

theorem assocGet_foldl_dedupFold (changes : List UsnChange)
    (m : List (Int × UsnChange)) (r : Int) :
    assocGet (changes.foldl dedupFold m) r
      = (changes.filter (fun c => c.file_ref == r)).foldl stepPerRef (assocGet m r) := by
  induction changes generalizing m with
  | nil => rfl
  | cons c rest ih =>
      simp only [List.foldl_cons, List.filter]
      rw [ih, assocGet_dedupFold]
      by_cases hr : c.file_ref = r
      · simp [hr]
      · have h1 : (c.file_ref == r) = false := by simp [hr]
        simp [hr, h1]

/-! ### Key invariants of the `final_state` map -/

/-- The well-formedness of the embedded hash map: keys are pairwise
distinct, and every stored change carries its key as `file_ref`. -/
def KeysOk (m : List (Int × UsnChange)) : Prop :=
  m.Pairwise (fun a b => a.1 ≠ b.1) ∧ ∀ p ∈ m, p.2.file_ref = p.1

theorem assocRemove_sublist (m : List (Int × UsnChange)) (k : Int) :
    List.Sublist (assocRemove m k) m := by
  induction m with
  | nil => simp [assocRemove]
  | cons p m ih =>
      by_cases hp : p.1 = k
      · simpa [assocRemove, hp] using ih.cons p
      · simpa [assocRemove, hp] using ih.cons₂ p

theorem keys_assocReplace (m : List (Int × UsnChange)) (k : Int) (v : UsnChange) :
    (assocReplace m k v).map Prod.fst = m.map Prod.fst := by
  induction m with
  | nil => rfl
  | cons p m ih =>
      by_cases hp : p.1 = k
      · simp [assocReplace, hp, ih]
      · simp [assocReplace, hp, ih]

theorem mem_assocReplace (m : List (Int × UsnChange)) (k : Int) (v : UsnChange)
    (p : Int × UsnChange) (hp : p ∈ assocReplace m k v) : p = (k, v) ∨ p ∈ m := by
  induction m with
  | nil => simp [assocReplace] at hp
  | cons q m ih =>
      by_cases hq : q.1 = k
      · rw [assocReplace, if_pos hq] at hp
        rcases List.mem_cons.mp hp with h | h
        · exact Or.inl h
        · rcases ih h with h1 | h1
          · exact Or.inl h1
          · exact Or.inr (List.mem_cons_of_mem q h1)
      · rw [assocReplace, if_neg hq] at hp
        rcases List.mem_cons.mp hp with h | h
        · exact Or.inr (h ▸ List.mem_cons_self q m)
        · rcases ih h with h1 | h1
          · exact Or.inl h1
          · exact Or.inr (List.mem_cons_of_mem q h1)

theorem assocGet_eq_none_iff (m : List (Int × UsnChange)) (k : Int) :
    assocGet m k = none ↔ ∀ p ∈ m, p.1 ≠ k := by
  induction m with
  | nil => simp [assocGet]
  | cons p m ih =>
      by_cases hp : p.1 = k
      · simp [assocGet, hp]
      · simp [assocGet, hp, ih]

theorem KeysOk_assocInsert (m : List (Int × UsnChange)) (k : Int) (v : UsnChange)
    (h : KeysOk m) (hv : v.file_ref = k) : KeysOk (assocInsert m k v) := by
  unfold assocInsert
  by_cases hpres : (assocGet m k).isSome = true
  · rw [if_pos hpres]
    constructor
    · have h1 : List.Pairwise Ne ((assocReplace m k v).map Prod.fst) := by
        rw [keys_assocReplace]
        exact List.pairwise_map.mpr h.1
      exact List.pairwise_map.mp h1
    · intro p hp
      rcases mem_assocReplace m k v p hp with h1 | h1
      · rw [h1]; exact hv
      · exact h.2 p h1
  · rw [if_neg hpres]
    have habs : assocGet m k = none := by
      cases h1 : assocGet m k <;> simp [h1] at hpres ⊢
    have hne := (assocGet_eq_none_iff m k).mp habs
    constructor
    · rw [List.pairwise_append]
      refine ⟨h.1, by simp, ?_⟩
      intro a ha b hb
      simp only [List.mem_singleton] at hb
      subst hb
      exact hne a ha
    · intro p hp
      rcases List.mem_append.mp hp with h1 | h1
      · exact h.2 p h1
      · simp only [List.mem_singleton] at h1
        rw [h1]
        exact hv

theorem KeysOk_dedupFold (m : List (Int × UsnChange)) (c : UsnChange)
    (h : KeysOk m) : KeysOk (dedupFold m c) := by
  unfold dedupFold
  cases hget : assocGet m c.file_ref with
  | none => exact KeysOk_assocInsert m c.file_ref c h rfl
  | some existing =>
      dsimp only
      by_cases hcond : existing.change_type = ChangeType.create ∧
          c.change_type = ChangeType.delete
      · rw [if_pos hcond]
        exact ⟨h.1.sublist (assocRemove_sublist m c.file_ref),
          fun p hp => h.2 p ((assocRemove_sublist m c.file_ref).mem hp)⟩
      · rw [if_neg hcond]
        exact KeysOk_assocInsert m c.file_ref c h rfl

theorem KeysOk_final_state (changes : List UsnChange) : KeysOk (final_state changes) := by
  have main : ∀ (cs : List UsnChange) (m : List (Int × UsnChange)),
      KeysOk m → KeysOk (cs.foldl dedupFold m) := by
    intro cs
    induction cs with
    | nil => intro m h; exact h
    | cons c rest ih => intro m h; exact ih _ (KeysOk_dedupFold m c h)
  exact main changes [] ⟨List.Pairwise.nil, by simp⟩

/-- The collapsed values carry pairwise distinct `file_ref`s. -/
theorem dedupValues_pairwise_refs (changes : List UsnChange) :
    (dedupValues changes).Pairwise (fun a b => a.file_ref ≠ b.file_ref) := by
  have h := KeysOk_final_state changes
  have h1 : (final_state changes).Pairwise
      (fun a b => a.2.file_ref ≠ b.2.file_ref) := by
    refine h.1.imp_of_mem ?_
    intro a b ha hb hne
    rw [h.2 a ha, h.2 b hb]
    exact hne
  unfold dedupValues
  rw [List.pairwise_map]
  exact h1

/-! ## Claim C1: the deduplication collapse -/

/-- C1, counterexample.  The claim reads the cancellation rule as "if the
*earliest recorded* state for a ref is Create and the *latest incoming*
change is Delete, the ref is dropped entirely".  On the batch
`[Create(7), Rename(7), Delete(7)]` the earliest recorded state is a
`Create` and the latest incoming change is a `Delete`, so the claim
predicts the empty output; but the code compares the incoming `Delete`
against the *currently stored* change — here the `Rename` — so the ref
survives: every possible output of `deduplicate_changes` is the singleton
`[Delete(7)]`, and the empty list is not a possible output. -/
theorem C1_counterexample_create_rename_delete :
    dedupValues
        [mkChange 7 "a" ChangeType.create, mkChange 7 "b" ChangeType.rename,
          mkChange 7 "b" ChangeType.delete]
      = [mkChange 7 "b" ChangeType.delete]
    ∧ ¬ PossibleDedupOutput
        [mkChange 7 "a" ChangeType.create, mkChange 7 "b" ChangeType.rename,
          mkChange 7 "b" ChangeType.delete]
        [] := by
  constructor
  · decide
  · decide

/-- C1, amended.  `deduplicate_changes` collapses changes by `file_ref`:
the entry a ref maps to after the batch is the fold of that ref's
subsequence under `stepPerRef` — an incoming `Delete` cancels a *currently
stored* `Create` (not merely an earliest-recorded one), and otherwise the
last change wins.  The claim's two laws hold as stated:
`dedup [Create x, Delete x] = []`, and
`dedup [Create x, Rename(x,n1), Rename(x,n2)]` is the single change
`Rename(x,n2)` (for any possible enumeration order of the hash map). -/
theorem C1_dedup_collapse_amended :
    (∀ (changes : List UsnChange) (r : Int),
      assocGet (final_state changes) r
        = (changes.filter (fun c => c.file_ref == r)).foldl stepPerRef none)
    ∧ (∀ out, PossibleDedupOutput
        [mkChange 7 "x" ChangeType.create, mkChange 7 "x" ChangeType.delete] out
        → out = [])
    ∧ (∀ (n1 n2 : String) (out : List UsnChange), PossibleDedupOutput
        [mkChange 7 "x" ChangeType.create, mkChange 7 n1 ChangeType.rename,
          mkChange 7 n2 ChangeType.rename] out
        → out = [mkChange 7 n2 ChangeType.rename]) := by
  refine ⟨?_, ?_, ?_⟩
  · intro changes r
    simpa [assocGet] using assocGet_foldl_dedupFold changes [] r
  · intro out h
    have : dedupValues
        [mkChange 7 "x" ChangeType.create, mkChange 7 "x" ChangeType.delete] = [] := by
      decide
    rw [PossibleDedupOutput, this] at h
    exact List.Perm.eq_nil h
  · intro n1 n2 out h
    have : dedupValues
        [mkChange 7 "x" ChangeType.create, mkChange 7 n1 ChangeType.rename,
          mkChange 7 n2 ChangeType.rename] = [mkChange 7 n2 ChangeType.rename] := by
      simp [dedupValues, final_state, dedupFold, assocGet, assocInsert, assocReplace,
        assocRemove, mkChange, stepPerRef]
    rw [PossibleDedupOutput, this] at h
    exact List.perm_singleton.mp h

/-- C1, witness for the amended theorem: the second dedup law applied at
concrete names, with the possible-output hypothesis discharged on the
canonical enumeration. -/
theorem C1_dedup_collapse_amended_witness :
    dedupValues
        [mkChange 7 "x" ChangeType.create, mkChange 7 "n1" ChangeType.rename,
          mkChange 7 "n2" ChangeType.rename]
      = [mkChange 7 "n2" ChangeType.rename] :=
  C1_dedup_collapse_amended.2.2 "n1" "n2" _ (by decide)

/-! ## The `files` table as a keyed map, and `apply_changes_batch`

`apply_changes_batch` runs one SQL statement per change inside a single
transaction; every statement touches exactly the row keyed by
`(volume_id, file_ref)` (schema: `UNIQUE(volume_id, file_ref)`).  The
table is embedded as a function from that key to an optional row.  The
`INSERT OR REPLACE` of a `Create` fills unmentioned columns with the
schema defaults (`size` 0, `modified` NULL). -/

/-- A row of the `files` table (the columns other than the key). -/
structure FileRow where
  parent_ref : Option Int
  name : String
  size : Int
  modified : Option Int
  is_dir : Bool
deriving DecidableEq, Repr

/-- The `files` table keyed by `(volume_id, file_ref)`. -/
def FilesMap : Type := Int × Int → Option FileRow

/-- The SQL statement issued for one change, as a transformation of the
row under the change's key: `Create` is `INSERT OR REPLACE`, `Delete` is
`DELETE`, `Rename` updates `name, parent_ref`, `Modify` updates `name`. -/
def changeOp (c : UsnChange) (row : Option FileRow) : Option FileRow :=
  match c.change_type with
  | ChangeType.create =>
      some { parent_ref := some c.parent_ref, name := c.name, size := 0,
             modified := none, is_dir := c.is_dir }
  | ChangeType.delete => none
  | ChangeType.rename =>
      row.map (fun r => { r with name := c.name, parent_ref := some c.parent_ref })
  | ChangeType.modify => row.map (fun r => { r with name := c.name })

/-- Apply one change's statement to the table. -/
def applyChangeMap (volume_id : Int) (st : FilesMap) (c : UsnChange) : FilesMap :=
  fun k => if k = (volume_id, c.file_ref) then changeOp c (st k) else st k

theorem applyChangeMap_comm (volume_id : Int) (a b : UsnChange)
    (h : a.file_ref ≠ b.file_ref) (st : FilesMap) :
    applyChangeMap volume_id (applyChangeMap volume_id st a) b
      = applyChangeMap volume_id (applyChangeMap volume_id st b) a := by
  funext k
  have hkey : (volume_id, a.file_ref) ≠ (volume_id, b.file_ref) := by
    intro hk
    exact h (congrArg Prod.snd hk)
  have hba : b.file_ref ≠ a.file_ref := fun he => h he.symm
  by_cases ha : k = (volume_id, a.file_ref)
  · have hb : ¬k = (volume_id, b.file_ref) := fun hk => hkey (ha ▸ hk ▸ rfl)
    simp [applyChangeMap, ha, hb, h, hba]
  · by_cases hb : k = (volume_id, b.file_ref)
    · simp [applyChangeMap, ha, hb, h, hba]
    · simp [applyChangeMap, ha, hb]

/-! ## Claim C3: ordering of applied changes -/

/-- The position, in the incoming batch, of the journal record that
survives deduplication for a given ref (the last record bearing the ref). -/
def lastSurvivingIdx (cs : List UsnChange) (r : Int) : Nat :=
  cs.length - 1 - cs.reverse.findIdx (fun c => c.file_ref == r)

/-- The ordering property C3 asserts of the batch handed to
`apply_changes_batch`: any two deduplicated changes appear in the order of
their surviving journal records. -/
def JournalOrdered (cs out : List UsnChange) : Prop :=
  out.Pairwise (fun a b => lastSurvivingIdx cs a.file_ref < lastSurvivingIdx cs b.file_ref)

/-- C3, counterexample.  For the two-record batch
`[Create(1), Create(2)]` both refs survive deduplication, and
`HashMap::into_values` may enumerate them in either order: the reversed
enumeration `[Create(2), Create(1)]` is a possible output of
`deduplicate_changes`, and it is *not* in journal order — so the claimed
ordering guarantee does not hold of the code. -/
theorem C3_counterexample_order_not_preserved :
    PossibleDedupOutput
        [mkChange 1 "f1" ChangeType.create, mkChange 2 "f2" ChangeType.create]
        [mkChange 2 "f2" ChangeType.create, mkChange 1 "f1" ChangeType.create]
    ∧ ¬ JournalOrdered
        [mkChange 1 "f1" ChangeType.create, mkChange 2 "f2" ChangeType.create]
        [mkChange 2 "f2" ChangeType.create, mkChange 1 "f1" ChangeType.create] := by
  constructor
  · decide
  · intro h
    rw [JournalOrdered] at h
    have := List.rel_of_pairwise_cons h (List.mem_singleton.mpr rfl)
    revert this
    decide

/-- C3, amended.  `deduplicate_changes` emits the surviving changes in the
hash map's unspecified enumeration order, so journal order across distinct
refs is not guaranteed; what does hold is that the surviving changes bear
pairwise distinct `file_ref`s, and therefore the table state produced by
applying them in the order handed over is the same for every possible
enumeration order. -/
theorem C3_dedup_order_independent_amended
    (changes out1 out2 : List UsnChange) (volume_id : Int) (st : FilesMap)
    (h1 : PossibleDedupOutput changes out1)
    (h2 : PossibleDedupOutput changes out2) :
    out1.foldl (applyChangeMap volume_id) st = out2.foldl (applyChangeMap volume_id) st := by
  have hsymm : Symmetric (fun a b : UsnChange => a.file_ref ≠ b.file_ref) :=
    fun x y hxy he => hxy he.symm
  have hperm : out1.Perm out2 := h1.trans h2.symm
  have hpair : out1.Pairwise (fun a b => a.file_ref ≠ b.file_ref) :=
    (h1.pairwise_iff (fun hxy he => hxy he.symm)).mpr (dedupValues_pairwise_refs changes)
  refine hperm.foldl_eq' ?_ st
  intro x hx y hy z
  by_cases hxy : x = y
  · subst hxy; rfl
  · exact applyChangeMap_comm volume_id x y
      (List.Pairwise.forall hsymm hpair hx hy hxy) z

/-- C3, witness for the amended theorem: the two possible enumeration
orders of the counterexample batch yield the same table. -/
theorem C3_dedup_order_independent_amended_witness :
    PossibleDedupOutput
        [mkChange 1 "f1" ChangeType.create, mkChange 2 "f2" ChangeType.create]
        [mkChange 2 "f2" ChangeType.create, mkChange 1 "f1" ChangeType.create]
    ∧ [mkChange 1 "f1" ChangeType.create, mkChange 2 "f2" ChangeType.create].foldl
          (applyChangeMap 3) (fun _ => none)
        = [mkChange 2 "f2" ChangeType.create, mkChange 1 "f1" ChangeType.create].foldl
          (applyChangeMap 3) (fun _ => none) :=
  ⟨by decide,
    C3_dedup_order_independent_amended
      [mkChange 1 "f1" ChangeType.create, mkChange 2 "f2" ChangeType.create]
      [mkChange 1 "f1" ChangeType.create, mkChange 2 "f2" ChangeType.create]
      [mkChange 2 "f2" ChangeType.create, mkChange 1 "f1" ChangeType.create]
      3 (fun _ => none) (by decide) (by decide)⟩

/-! ## Claim C5: `apply_changes_batch`

The Rust function opens one transaction, executes one statement per
change, counts a change as applied when its statement returns `Ok`, logs
and skips a change whose statement errors, and commits at the end.
Whether rusqlite reports an error for a given statement is environmental
(e.g. I/O), so the embedding takes a success oracle `ok : Nat → Bool`
over statement positions; the all-success run is `ok = fun _ => true`. -/

/-- The statement loop of `apply_changes_batch`, from position `i`:
returns the table visible inside the transaction and the `applied`
counter. -/
def applyGo (ok : Nat → Bool) (volume_id : Int) :
    Nat → List UsnChange → FilesMap → FilesMap × Nat
  | _, [], st => (st, 0)
  | i, c :: rest, st =>
      let st1 := if ok i then applyChangeMap volume_id st c else st
      let res := applyGo ok volume_id (i + 1) rest st1
      (res.1, (if ok i then 1 else 0) + res.2)

/-- `apply_changes_batch`: one transaction over the whole batch (the
returned map is the committed table), returning the applied count. -/
def apply_changes_batch (ok : Nat → Bool) (volume_id : Int)
    (changes : List UsnChange) (st : FilesMap) : FilesMap × Nat :=
  applyGo ok volume_id 0 changes st

/-- The subsequence of changes whose statements succeed, from position `i`. -/
def selectOk (ok : Nat → Bool) : Nat → List UsnChange → List UsnChange
  | _, [] => []
  | i, c :: rest =>
      if ok i then c :: selectOk ok (i + 1) rest else selectOk ok (i + 1) rest

theorem applyGo_count (ok : Nat → Bool) (volume_id : Int) :
    ∀ (cs : List UsnChange) (i : Nat) (st : FilesMap),
      (applyGo ok volume_id i cs st).2 = (selectOk ok i cs).length := by
  intro cs
  induction cs with
  | nil => intro i st; rfl
  | cons c rest ih =>
      intro i st
      by_cases hi : ok i = true <;>
        simp [applyGo, selectOk, hi, ih, Nat.add_comm]

theorem applyGo_state (ok : Nat → Bool) (volume_id : Int) :
    ∀ (cs : List UsnChange) (i : Nat) (st : FilesMap),
      (applyGo ok volume_id i cs st).1
        = (selectOk ok i cs).foldl (applyChangeMap volume_id) st := by
  intro cs
  induction cs with
  | nil => intro i st; rfl
  | cons c rest ih =>
      intro i st
      by_cases hi : ok i = true <;>
        simp [applyGo, selectOk, hi, ih]

theorem selectOk_length (ok : Nat → Bool) :
    ∀ (cs : List UsnChange) (i : Nat),
      (selectOk ok i cs).length = (List.range' i cs.length).countP (fun j => ok j) := by
  intro cs
  induction cs with
  | nil => intro i; rfl
  | cons c rest ih =>
      intro i
      by_cases hi : ok i = true <;>
        simp [selectOk, List.range', List.countP_cons, hi, ih]

/-- C5.  `apply_changes_batch` applies the whole batch in one transaction:
the committed table is the fold of the changes whose statements succeed
(in batch order), a failing statement is skipped without aborting the
rest, the returned count is the number of succeeding statements, and each
statement maps its change type to the claimed SQL effect on the row keyed
by `(volume_id, file_ref)`, leaving every other row unchanged. -/
theorem C5_apply_changes_batch :
    (∀ (ok : Nat → Bool) (volume_id : Int) (changes : List UsnChange) (st : FilesMap),
      (apply_changes_batch ok volume_id changes st).2
        = (List.range changes.length).countP (fun j => ok j))
    ∧ (∀ (ok : Nat → Bool) (volume_id : Int) (changes : List UsnChange) (st : FilesMap),
      (apply_changes_batch ok volume_id changes st).1
        = (selectOk ok 0 changes).foldl (applyChangeMap volume_id) st)
    ∧ (∀ (volume_id : Int) (changes : List UsnChange) (st : FilesMap),
      (apply_changes_batch (fun _ => true) volume_id changes st).2 = changes.length
        ∧ (apply_changes_batch (fun _ => true) volume_id changes st).1
            = changes.foldl (applyChangeMap volume_id) st)
    ∧ (∀ (volume_id : Int) (st : FilesMap) (c : UsnChange),
      applyChangeMap volume_id st c (volume_id, c.file_ref)
        = changeOp c (st (volume_id, c.file_ref)))
    ∧ (∀ (volume_id : Int) (st : FilesMap) (c : UsnChange) (k : Int × Int),
      k ≠ (volume_id, c.file_ref) → applyChangeMap volume_id st c k = st k) := by
  have hsel : ∀ (cs : List UsnChange) (i : Nat), selectOk (fun _ => true) i cs = cs := by
    intro cs
    induction cs with
    | nil => intro i; rfl
    | cons c rest ih => intro i; simp [selectOk, ih]
  refine ⟨?_, ?_, ?_, ?_, ?_⟩
  · intro ok volume_id changes st
    rw [apply_changes_batch, applyGo_count, selectOk_length, List.range_eq_range']
  · intro ok volume_id changes st
    rw [apply_changes_batch, applyGo_state]
  · intro volume_id changes st
    constructor
    · rw [apply_changes_batch, applyGo_count, hsel]
    · rw [apply_changes_batch, applyGo_state, hsel]
  · intro volume_id st c
    simp [applyChangeMap]
  · intro volume_id st c k hk
    simp [applyChangeMap, hk]

/-- C5, witness: the frame conjunct applied at a key other than the
change's own. -/
theorem C5_apply_changes_batch_witness :
    applyChangeMap 1 (fun _ => none) (mkChange 7 "x" ChangeType.create) (1, 8)
      = (fun _ => (none : Option FileRow)) (1, 8) :=
  C5_apply_changes_batch.2.2.2.2 1 (fun _ => none) (mkChange 7 "x" ChangeType.create)
    (1, 8) (by decide)

/-! ## The USN monitor (`usn_monitor.rs`)

`UsnJournal::query` returns the journal metadata; the monitor compares it
against its saved state.  The Rust comparisons in `resume` and
`poll_changes` are written `(last_usn as u64) < (lowest_valid_usn as u64)`
— unsigned comparisons of the raw 64-bit patterns. -/

/-- The journal metadata returned by `journal.query(false)`. -/
structure JournalMeta where
  journal_id : Nat
  first_usn : Int
  next_usn : Int
  lowest_valid_usn : Int
deriving DecidableEq, Repr

/-- `UsnError` from `usn_monitor.rs` (the `Other` payload elided to the
message string). -/
inductive UsnError where
  | journalNotActive
  | journalWrapped (last_processed lowest_valid : Int)
  | journalRecreated (old_id new_id : Nat)
  | other (msg : String)
deriving DecidableEq, Repr

/-- The `UsnMonitor` state: drive letter, cursor, journal id. -/
structure UsnMonitor where
  volume : Char
  last_usn : Int
  journal_id : Nat
deriving DecidableEq, Repr

/-- `UsnMonitor::resume(drive_letter, last_usn, journal_id)` against the
queried metadata. -/
def UsnMonitor.resume (drive_letter : Char) (last_usn : Int) (journal_id : Nat)
    (meta : JournalMeta) : Except UsnError UsnMonitor :=
  if meta.journal_id ≠ journal_id then
    Except.error (UsnError.journalRecreated journal_id meta.journal_id)
  else if toU64 last_usn < toU64 meta.lowest_valid_usn then
    Except.error (UsnError.journalWrapped last_usn (toI64 (toU64 meta.lowest_valid_usn)))
  else
    Except.ok { volume := drive_letter, last_usn := last_usn, journal_id := journal_id }

/-- A record from the journal iterator (`usn_journal_rs::UsnRecord`);
`fid`/`parent_fid` are `u64`, `usn` is `i64`, `reason` is `u32`. -/
structure UsnRecord where
  usn : Int
  reason : Nat
  fid : Nat
  parent_fid : Nat
  file_name : String
deriving DecidableEq, Repr

/-- `UsnMonitor::reason_to_change_type`: pick one type from the reason
bitmask with priority Delete > Create > Rename > Modify; Rename is either
rename-old-name (0x1000) or rename-new-name (0x2000). -/
def reason_to_change_type (reason : Nat) : ChangeType :=
  if reason &&& 0x200 ≠ 0 then ChangeType.delete
  else if reason &&& 0x100 ≠ 0 then ChangeType.create
  else if reason &&& (0x2000 ||| 0x1000) ≠ 0 then ChangeType.rename
  else ChangeType.modify

/-- The record loop of `poll_changes`: iterator errors are logged and
skipped, records at or before the starting cursor are skipped, and each
remaining record advances the cursor and emits a change (`is_dir` is
hard-coded `false`; the library does not expose the attribute). -/
def pollGo (starting_usn : Int) :
    List (Except String UsnRecord) → Int → List UsnChange → Int × List UsnChange
  | [], last, acc => (last, acc)
  | Except.error _ :: rest, last, acc => pollGo starting_usn rest last acc
  | Except.ok r :: rest, last, acc =>
      if r.usn ≤ starting_usn then pollGo starting_usn rest last acc
      else
        pollGo starting_usn rest r.usn
          (acc ++ [{ file_ref := toI64 r.fid, parent_ref := toI64 r.parent_fid,
                     name := r.file_name,
                     change_type := reason_to_change_type r.reason,
                     is_dir := false }])

/-- `UsnMonitor::poll_changes` against the queried metadata and the
journal iterator's items: re-checks recreation and wrap, then collects the
records newer than the cursor, advancing `last_usn`. -/
def UsnMonitor.poll_changes (m : UsnMonitor) (meta : JournalMeta)
    (records : List (Except String UsnRecord)) :
    UsnMonitor × Except UsnError (List UsnChange) :=
  if meta.journal_id ≠ m.journal_id then
    (m, Except.error (UsnError.journalRecreated m.journal_id meta.journal_id))
  else if toU64 m.last_usn < toU64 meta.lowest_valid_usn then
    (m, Except.error (UsnError.journalWrapped m.last_usn (toI64 (toU64 meta.lowest_valid_usn))))
  else
    let res := pollGo m.last_usn records m.last_usn []
    ({ m with last_usn := res.1 }, Except.ok res.2)

/-! ## Claim C2: `UsnMonitor::resume` -/

/-- C2, counterexample.  The claim reads the wrap check as a comparison
"of signed 64-bit USN positions", i.e. `saved_usn ≥ lowest_valid_usn` over
`i64`.  The code compares the bit patterns as unsigned (`as u64`).  At
`saved_usn = -1`, `lowest_valid_usn = 5` (journal id matching), the signed
reading demands a `JournalWrapped` failure, but the code resumes
successfully, adopting `-1` as the cursor. -/
theorem C2_counterexample_unsigned_wrap_check :
    ¬ ((-1 : Int) ≥ 5)
    ∧ UsnMonitor.resume 'C' (-1) 7
        { journal_id := 7, first_usn := 0, next_usn := 9, lowest_valid_usn := 5 }
      = Except.ok { volume := 'C', last_usn := -1, journal_id := 7 } := by
  constructor
  · decide
  · rfl

/-- C2, amended.  `resume(drive, saved_usn, saved_journal_id)` fails with
`JournalRecreated { old_id = saved_journal_id, new_id = current id }` when
the current journal id differs; otherwise it fails with
`JournalWrapped { last_processed = saved_usn, lowest_valid }` when
`saved_usn` is below the journal's `lowest_valid_usn` *in the unsigned
(u64 bit-pattern) order* — not the signed order the claim states —
and otherwise succeeds, adopting `saved_usn` as the cursor and
`saved_journal_id` as the journal id. -/
theorem C2_resume_amended (drive_letter : Char) (last_usn : Int) (journal_id : Nat)
    (meta : JournalMeta) :
    (meta.journal_id ≠ journal_id →
      UsnMonitor.resume drive_letter last_usn journal_id meta
        = Except.error (UsnError.journalRecreated journal_id meta.journal_id))
    ∧ (meta.journal_id = journal_id →
      toU64 last_usn < toU64 meta.lowest_valid_usn →
      UsnMonitor.resume drive_letter last_usn journal_id meta
        = Except.error (UsnError.journalWrapped last_usn (toI64 (toU64 meta.lowest_valid_usn))))
    ∧ (meta.journal_id = journal_id →
      toU64 meta.lowest_valid_usn ≤ toU64 last_usn →
      UsnMonitor.resume drive_letter last_usn journal_id meta
        = Except.ok { volume := drive_letter, last_usn := last_usn,
                      journal_id := journal_id }) := by
  refine ⟨?_, ?_, ?_⟩
  · intro hne
    rw [UsnMonitor.resume, if_pos hne]
  · intro heq hlt
    rw [UsnMonitor.resume, if_neg (by simp [heq]), if_pos hlt]
  · intro heq hge
    rw [UsnMonitor.resume, if_neg (by simp [heq]), if_neg (by omega)]

/-- C2, witness: a successful resume at journal id 7, cursor 100,
lowest valid USN 50. -/
theorem C2_resume_amended_witness :
    UsnMonitor.resume 'C' 100 7
        { journal_id := 7, first_usn := 0, next_usn := 120, lowest_valid_usn := 50 }
      = Except.ok { volume := 'C', last_usn := 100, journal_id := 7 } :=
  (C2_resume_amended 'C' 100 7
      { journal_id := 7, first_usn := 0, next_usn := 120, lowest_valid_usn := 50 }).2.2
    (by decide) (by decide)

/-! ## Claim C8: `poll_changes` monotonicity -/

theorem pollGo_last_mono (starting_usn : Int) :
    ∀ (records : List (Except String UsnRecord)) (last : Int) (acc : List UsnChange),
      starting_usn ≤ last → starting_usn ≤ (pollGo starting_usn records last acc).1 := by
  intro records
  induction records with
  | nil => intro last acc h; exact h
  | cons item rest ih =>
      intro last acc h
      cases item with
      | error e => exact ih last acc h
      | ok r =>
          by_cases hu : r.usn ≤ starting_usn
          · rw [pollGo, if_pos hu]
            exact ih last acc h
          · rw [pollGo, if_neg hu]
            exact ih r.usn _ (le_of_not_le hu)

/-- C8.  Whatever the journal metadata and record stream, `poll_changes`
never moves `last_usn` backwards, never touches `journal_id` (on an id
mismatch it returns `JournalRecreated` instead of adopting the new id),
and never changes the volume letter. -/
theorem C8_poll_changes_monotone (m : UsnMonitor) (meta : JournalMeta)
    (records : List (Except String UsnRecord)) :
    m.last_usn ≤ (m.poll_changes meta records).1.last_usn
    ∧ (m.poll_changes meta records).1.journal_id = m.journal_id
    ∧ (m.poll_changes meta records).1.volume = m.volume
    ∧ (meta.journal_id = m.journal_id
        ∨ (m.poll_changes meta records).2
            = Except.error (UsnError.journalRecreated m.journal_id meta.journal_id)) := by
  unfold UsnMonitor.poll_changes
  by_cases hid : meta.journal_id ≠ m.journal_id
  · rw [if_pos hid]
    exact ⟨le_refl _, rfl, rfl, Or.inr rfl⟩
  · rw [if_neg hid]
    by_cases hwrap : toU64 m.last_usn < toU64 meta.lowest_valid_usn
    · rw [if_pos hwrap]
      exact ⟨le_refl _, rfl, rfl, Or.inl (not_ne_iff.mp hid)⟩
    · rw [if_neg hwrap]
      exact ⟨pollGo_last_mono m.last_usn records m.last_usn [] (le_refl _), rfl, rfl,
        Or.inl (not_ne_iff.mp hid)⟩

/-! ## Claim C4: `batch_insert_files` (`db/ops.rs`)

`batch_insert_files` iterates `files.chunks(BATCH_SIZE)`; each chunk runs
inside one transaction with a cached prepared plain `INSERT`.  A failing
insert propagates the error with `?`, dropping the transaction without
commit (rollback), so previously committed chunks survive and the failing
chunk leaves no rows.  The `files` table carries
`UNIQUE(volume_id, file_ref)` with `file_ref` nullable, and SQLite treats
NULLs as distinct in unique indexes, so a plain `INSERT` fails exactly
when the entry has `file_ref = some r` and a row with the same
`(volume_id, some r)` is already visible to the transaction.  The table is
embedded as the row list in insertion order. -/

/-- `BATCH_SIZE` from `db/ops.rs`. -/
def BATCH_SIZE : Nat := 100000

/-- `FileEntry` from `db/ops.rs`. -/
structure FileEntry where
  volume_id : Int
  file_ref : Option Int
  parent_ref : Option Int
  name : String
  size : Int
  modified : Option Int
  is_dir : Bool
deriving DecidableEq, Repr

/-- `slice::chunks(BATCH_SIZE)`, with the list length as structural fuel
(each step consumes at least one element since `BATCH_SIZE > 0`). -/
def chunksGo : Nat → List FileEntry → List (List FileEntry)
  | 0, _ => []
  | _, [] => []
  | Nat.succ fuel, l => l.take BATCH_SIZE :: chunksGo fuel (l.drop BATCH_SIZE)

/-- `files.chunks(BATCH_SIZE)` as a list of chunks. -/
def chunksOf (l : List FileEntry) : List (List FileEntry) :=
  chunksGo l.length l

theorem chunksGo_nil_eq (fuel : Nat) : chunksGo fuel [] = [] := by
  cases fuel <;> rfl

theorem chunksGo_step (fuel : Nat) (l : List FileEntry) (h : l ≠ []) :
    chunksGo (fuel + 1) l = l.take BATCH_SIZE :: chunksGo fuel (l.drop BATCH_SIZE) := by
  cases l with
  | nil => exact absurd rfl h
  | cons x xs => rfl

theorem chunksGo_join (fuel : Nat) :
    ∀ (l : List FileEntry), l.length ≤ fuel → (chunksGo fuel l).flatten = l := by
  induction fuel with
  | zero =>
      intro l h
      have : l = [] := List.length_eq_zero.mp (Nat.le_zero.mp h)
      subst this
      rfl
  | succ fuel ih =>
      intro l h
      cases l with
      | nil => rfl
      | cons x xs =>
          rw [chunksGo_step fuel (x :: xs) (by simp), List.flatten_cons,
            ih ((x :: xs).drop BATCH_SIZE) ?_, List.take_append_drop]
          have hB : 0 < BATCH_SIZE := by decide
          simp only [List.length_drop, List.length_cons] at *
          omega

theorem chunksGo_sizes (fuel : Nat) :
    ∀ (l : List FileEntry), ∀ chunk ∈ chunksGo fuel l, chunk.length ≤ BATCH_SIZE := by
  induction fuel with
  | zero => intro l chunk h; simp [chunksGo] at h
  | succ fuel ih =>
      intro l chunk h
      cases l with
      | nil => simp [chunksGo] at h
      | cons x xs =>
          rw [chunksGo_step fuel (x :: xs) (by simp)] at h
          rcases List.mem_cons.mp h with h1 | h1
          · subst h1
            simp [List.length_take]
          · exact ih _ chunk h1

/-- `chunksOf` splits the list into consecutive chunks: concatenating the
chunks gives the list back. -/
theorem chunksOf_join (l : List FileEntry) : (chunksOf l).flatten = l :=
  chunksGo_join l.length l (le_refl _)

/-- The unique-index conflict that makes the chunk's `INSERT` fail:
a duplicate non-NULL `(volume_id, file_ref)` visible to the transaction. -/
def hasConflict (tbl : List FileEntry) (e : FileEntry) : Bool :=
  match e.file_ref with
  | none => false
  | some r => tbl.any (fun t => t.volume_id == e.volume_id && t.file_ref == some r)

/-- The insert loop of one chunk's transaction: `none` models the `?`
error propagation (transaction dropped, rollback). -/
def insertChunk : List FileEntry → List FileEntry → Option (List FileEntry)
  | tx, [] => some tx
  | tx, e :: rest => if hasConflict tx e then none else insertChunk (tx ++ [e]) rest

/-- The chunk loop: returns the committed table, the number of committed
transactions, and `Ok total_inserted` or the propagated error. -/
def runChunks : List FileEntry → List (List FileEntry) → List FileEntry × Nat × Except Unit Nat
  | committed, [] => (committed, 0, Except.ok 0)
  | committed, chunk :: rest =>
      match insertChunk committed chunk with
      | none => (committed, 0, Except.error ())
      | some tx =>
          match runChunks tx rest with
          | (st, n, Except.ok total) => (st, n + 1, Except.ok (chunk.length + total))
          | (st, n, Except.error e) => (st, n + 1, Except.error e)

/-- `batch_insert_files(conn, files)` against a table state. -/
def batch_insert_files (tbl : List FileEntry) (files : List FileEntry) :
    List FileEntry × Nat × Except Unit Nat :=
  runChunks tbl (chunksOf files)

theorem insertChunk_ok (chunk : List FileEntry) :
    ∀ (tx out : List FileEntry), insertChunk tx chunk = some out → out = tx ++ chunk := by
  induction chunk with
  | nil =>
      intro tx out h
      simp [insertChunk] at h
      simp [h.symm]
  | cons e rest ih =>
      intro tx out h
      rw [insertChunk] at h
      by_cases hc : hasConflict tx e = true
      · rw [if_pos hc] at h
        exact absurd h (by simp)
      · rw [if_neg hc] at h
        have := ih (tx ++ [e]) out h
        simpa using this

theorem insertChunk_none_ref (chunk : List FileEntry)
    (hnone : ∀ e ∈ chunk, e.file_ref = none) :
    ∀ (tx : List FileEntry), insertChunk tx chunk = some (tx ++ chunk) := by
  induction chunk with
  | nil => intro tx; simp [insertChunk]
  | cons e rest ih =>
      intro tx
      have he : e.file_ref = none := hnone e (List.mem_cons_self e rest)
      have hc : hasConflict tx e = false := by
        rw [hasConflict, he]
      rw [insertChunk, hc]
      simp only [Bool.false_eq_true, if_false]
      have := ih (fun x hx => hnone x (List.mem_cons_of_mem e hx)) (tx ++ [e])
      simpa using this

theorem runChunks_ok (chunks : List (List FileEntry)) :
    ∀ (committed st : List FileEntry) (n : Nat) (total : Nat),
      runChunks committed chunks = (st, n, Except.ok total) →
      st = committed ++ chunks.flatten ∧ n = chunks.length
        ∧ total = (chunks.map List.length).sum := by
  induction chunks with
  | nil =>
      intro committed st n total h
      rw [runChunks] at h
      injection h with h1 h2
      injection h2 with h2 h3
      injection h3 with h3
      simp [h1.symm, h2.symm, h3]
  | cons chunk rest ih =>
      intro committed st n total h
      rw [runChunks] at h
      cases hins : insertChunk committed chunk with
      | none => rw [hins] at h; exact absurd h (by simp)
      | some tx =>
          rw [hins] at h
          dsimp only at h
          have htx : tx = committed ++ chunk := insertChunk_ok chunk committed tx hins
          cases hrun : runChunks tx rest with
          | mk st1 rest1 =>
              cases rest1 with
              | mk n1 r1 =>
                  cases r1 with
                  | ok total1 =>
                      rw [hrun] at h
                      dsimp only at h
                      injection h with h1 h2
                      injection h2 with h2 h3
                      injection h3 with h3
                      rcases ih tx st1 n1 total1 hrun with ⟨ha, hb, hc⟩
                      subst htx
                      refine ⟨by rw [← h1, ha]; simp, by rw [← h2, hb, List.length_cons], ?_⟩
                      rw [← h3, hc]
                      simp
                  | error e1 =>
                      rw [hrun] at h
                      dsimp only at h
                      exact absurd h (by simp)

theorem runChunks_whole_chunks (chunks : List (List FileEntry)) :
    ∀ (committed st : List FileEntry) (n : Nat) (r : Except Unit Nat),
      runChunks committed chunks = (st, n, r) →
      ∃ k, st = committed ++ (chunks.take k).flatten := by
  induction chunks with
  | nil =>
      intro committed st n r h
      rw [runChunks] at h
      injection h with h1 _
      exact ⟨0, by simp [h1.symm]⟩
  | cons chunk rest ih =>
      intro committed st n r h
      rw [runChunks] at h
      cases hins : insertChunk committed chunk with
      | none =>
          rw [hins] at h
          injection h with h1 _
          exact ⟨0, by simp [h1.symm]⟩
      | some tx =>
          rw [hins] at h
          dsimp only at h
          have htx : tx = committed ++ chunk := insertChunk_ok chunk committed tx hins
          cases hrun : runChunks tx rest with
          | mk st1 rest1 =>
              cases rest1 with
              | mk n1 r1 =>
                  have hst : st = st1 := by
                    cases r1 <;> rw [hrun] at h <;> dsimp only at h <;>
                      injection h with h1 _ <;> exact h1.symm
                  rcases ih tx st1 n1 r1 hrun with ⟨k, hk⟩
                  refine ⟨k + 1, ?_⟩
                  rw [hst, hk, htx]
                  simp

theorem runChunks_none_ref (chunks : List (List FileEntry))
    (hnone : ∀ chunk ∈ chunks, ∀ e ∈ chunk, e.file_ref = none) :
    ∀ committed, runChunks committed chunks
      = (committed ++ chunks.flatten, chunks.length, Except.ok ((chunks.map List.length).sum)) := by
  induction chunks with
  | nil => intro committed; simp [runChunks]
  | cons chunk rest ih =>
      intro committed
      rw [runChunks,
        insertChunk_none_ref chunk (hnone chunk (List.mem_cons_self chunk rest)) committed]
      dsimp only
      rw [ih (fun c hc e he => hnone c (List.mem_cons_of_mem chunk hc) e he)]
      dsimp only
      simp [Nat.add_comm]

/-- A sample entry with a NULL `file_ref` (never conflicts: SQLite unique
indexes treat NULLs as distinct). -/
def e0 : FileEntry :=
  { volume_id := 1, file_ref := none, parent_ref := none, name := "f",
    size := 0, modified := none, is_dir := false }

theorem chunksGo_small (fuel : Nat) (l : List FileEntry) (h : l ≠ [])
    (hlen : l.length ≤ BATCH_SIZE) : chunksGo (fuel + 1) l = [l] := by
  rw [chunksGo_step fuel l h, List.take_of_length_le hlen,
    List.drop_of_length_le hlen, chunksGo_nil_eq]

theorem chunksOf_replicate_100000 :
    chunksOf (List.replicate 100000 e0) = [List.replicate 100000 e0] := by
  have hne : List.replicate 100000 e0 ≠ [] := by
    apply List.ne_nil_of_length_pos
    rw [List.length_replicate]
    norm_num
  rw [chunksOf, List.length_replicate]
  show chunksGo (99999 + 1) (List.replicate 100000 e0) = _
  exact chunksGo_small 99999 _ hne (by rw [List.length_replicate, BATCH_SIZE])

theorem chunksOf_replicate_100001 :
    chunksOf (List.replicate 100001 e0) = [List.replicate 100000 e0, List.replicate 1 e0] := by
  have hne : List.replicate 100001 e0 ≠ [] := by
    apply List.ne_nil_of_length_pos
    rw [List.length_replicate]
    norm_num
  rw [chunksOf, List.length_replicate]
  show chunksGo (100000 + 1) (List.replicate 100001 e0) = _
  rw [chunksGo_step 100000 _ hne, List.take_replicate, List.drop_replicate]
  have h1 : min BATCH_SIZE 100001 = 100000 := by rw [BATCH_SIZE]; norm_num
  have h2 : (100001 - BATCH_SIZE : Nat) = 1 := by rw [BATCH_SIZE]
  have h3 : chunksGo 100000 (List.replicate 1 e0) = [List.replicate 1 e0] := by
    show chunksGo (99999 + 1) (List.replicate 1 e0) = _
    refine chunksGo_small 99999 _ (by simp) ?_
    rw [List.length_replicate, BATCH_SIZE]
    norm_num
  rw [h1, h2, h3]

theorem replicate_e0_none_ref (n : Nat) :
    ∀ chunk ∈ chunksOf (List.replicate n e0), ∀ e ∈ chunk, e.file_ref = none := by
  intro chunk hchunk e he
  have hmem : e ∈ (chunksOf (List.replicate n e0)).flatten :=
    List.mem_flatten.mpr ⟨chunk, hchunk, he⟩
  rw [chunksOf_join] at hmem
  rw [List.eq_of_mem_replicate hmem]
  rfl

/-- C4.  `batch_insert_files` splits the input into consecutive chunks of
at most 100 000 entries (concatenating the chunks restores the input);
each chunk is one transaction that either commits whole or leaves no row
(the committed table is always the prior table plus a prefix of whole
chunks); on success the returned count is the number of entries given and
every entry is in the table; a list of exactly 100 000 never-conflicting
entries commits in one transaction and 100 001 entries commit in two. -/
theorem C4_batch_insert_files :
    (∀ files : List FileEntry, (chunksOf files).flatten = files
      ∧ ∀ chunk ∈ chunksOf files, chunk.length ≤ BATCH_SIZE)
    ∧ (∀ (tbl files st : List FileEntry) (n total : Nat),
        batch_insert_files tbl files = (st, n, Except.ok total) →
        total = files.length ∧ st = tbl ++ files ∧ n = (chunksOf files).length)
    ∧ (∀ (tbl files st : List FileEntry) (n : Nat) (r : Except Unit Nat),
        batch_insert_files tbl files = (st, n, r) →
        ∃ k, st = tbl ++ ((chunksOf files).take k).flatten)
    ∧ ((batch_insert_files [] (List.replicate 100000 e0)).2.1 = 1
        ∧ (batch_insert_files [] (List.replicate 100000 e0)).2.2 = Except.ok 100000)
    ∧ ((batch_insert_files [] (List.replicate 100001 e0)).2.1 = 2
        ∧ (batch_insert_files [] (List.replicate 100001 e0)).2.2 = Except.ok 100001) := by
  refine ⟨?_, ?_, ?_, ?_, ?_⟩
  · intro files
    exact ⟨chunksOf_join files, chunksGo_sizes files.length files⟩
  · intro tbl files st n total h
    rcases runChunks_ok (chunksOf files) tbl st n total h with ⟨ha, hb, hc⟩
    refine ⟨?_, ?_, hb⟩
    · rw [hc]
      have := congrArg List.length (chunksOf_join files)
      rw [← this]
      simp [List.length_flatten]
    · rw [ha, chunksOf_join]
  · intro tbl files st n r h
    exact runChunks_whole_chunks (chunksOf files) tbl st n r h
  · rw [batch_insert_files, chunksOf_replicate_100000,
      runChunks_none_ref _ (by rw [← chunksOf_replicate_100000]; exact replicate_e0_none_ref 100000)]
    refine ⟨rfl, ?_⟩
    simp only [List.map_cons, List.map_nil, List.length_replicate, List.sum_cons,
      List.sum_nil]
    norm_num
  · rw [batch_insert_files, chunksOf_replicate_100001,
      runChunks_none_ref _ (by rw [← chunksOf_replicate_100001]; exact replicate_e0_none_ref 100001)]
    refine ⟨rfl, ?_⟩
    simp only [List.map_cons, List.map_nil, List.length_replicate, List.sum_cons,
      List.sum_nil]
    norm_num

/-- C4, witness: the success branch applied to a singleton batch. -/
theorem C4_batch_insert_files_witness :
    (1 : Nat) = ([e0] : List FileEntry).length
    ∧ ([e0] : List FileEntry) = [] ++ [e0]
    ∧ (1 : Nat) = (chunksOf [e0]).length := by
  have hch : chunksOf [e0] = [[e0]] := by
    rw [chunksOf, List.length_cons, List.length_nil]
    exact chunksGo_small 0 [e0] (by simp) (by rw [BATCH_SIZE]; norm_num)
  have hrun : batch_insert_files [] [e0] = ([e0], 1, Except.ok 1) := by
    rw [batch_insert_files, hch, runChunks_none_ref [[e0]] (by
      intro chunk hc e he
      simp only [List.mem_singleton] at hc
      subst hc
      simp only [List.mem_singleton] at he
      subst he
      rfl)]
    simp
  exact C4_batch_insert_files.2.1 [] [e0] [e0] 1 1 hrun

/-! ## Claim C6: `reconstruct_path` (`db/ops.rs`)

The SQL lookup `SELECT name, parent_ref FROM files WHERE volume_id = ?1
AND file_ref = ?2` returns the first matching row (rows with NULL
`file_ref` never match).  The Rust loop walks `current_ref`, pushes every
name that is nonempty and not `"."`, follows `parent_ref`, stops on a
missing row, and finally reverses the pushed names.  The Rust loop has no
termination guard, so the embedding takes explicit fuel; every theorem
below supplies fuel at least the chain length. -/

/-- The per-step row lookup of `reconstruct_path`. -/
def lookup_name_parent (tbl : List FileEntry) (volume_id ref : Int) :
    Option (String × Option Int) :=
  (tbl.find? (fun r => r.volume_id == volume_id && r.file_ref == some ref)).map
    (fun r => (r.name, r.parent_ref))

/-- The walk loop of `reconstruct_path` (`components` accumulates pushed
names in walk order). -/
def reconstructGo (tbl : List FileEntry) (volume_id : Int) :
    Nat → Option Int → List String → List String
  | 0, _, comps => comps
  | _ + 1, none, comps => comps
  | fuel + 1, some ref, comps =>
      match lookup_name_parent tbl volume_id ref with
      | none => comps
      | some (name, parent) =>
          reconstructGo tbl volume_id fuel parent
            (if name ≠ "" ∧ name ≠ "." then comps ++ [name] else comps)

/-- `reconstruct_path(conn, volume_id, file_ref)`: the reversed collected
names (the `PathBuf` joins them with the path separator). -/
def reconstruct_path (tbl : List FileEntry) (volume_id file_ref : Int) (fuel : Nat) :
    List String :=
  (reconstructGo tbl volume_id fuel (some file_ref) []).reverse

/-- Follows the spec's words, for the refinement comparison only: "stop
when `parent_ref = NULL`, or when the row is missing, or when `name` is
empty / `\".\"`" — i.e. an empty or `"."` name *stops* the walk instead of
being skipped. -/
def reconstructGoSpec (tbl : List FileEntry) (volume_id : Int) :
    Nat → Option Int → List String → List String
  | 0, _, comps => comps
  | _ + 1, none, comps => comps
  | fuel + 1, some ref, comps =>
      match lookup_name_parent tbl volume_id ref with
      | none => comps
      | some (name, parent) =>
          if name = "" ∨ name = "." then comps
          else reconstructGoSpec tbl volume_id fuel parent (comps ++ [name])

/-- The spec's reading of `reconstruct_path`. -/
def reconstruct_path_spec (tbl : List FileEntry) (volume_id file_ref : Int)
    (fuel : Nat) : List String :=
  (reconstructGoSpec tbl volume_id fuel (some file_ref) []).reverse

/-- A directory row for the C6 tables. -/
def dirRow (ref : Int) (parent : Option Int) (n : String) : FileEntry :=
  { volume_id := 1, file_ref := some ref, parent_ref := parent, name := n,
    size := 0, modified := none, is_dir := true }

/-- The claim's example chain: 400 → 300 → 200 → 100 → 5 (root, empty name). -/
def exampleChain : List FileEntry :=
  [ dirRow 5 none "",
    dirRow 100 (some 5) "Users",
    dirRow 200 (some 100) "John",
    dirRow 300 (some 200) "Documents",
    { volume_id := 1, file_ref := some 400, parent_ref := some 300,
      name := "file.txt", size := 1024, modified := some 1700000000, is_dir := false } ]

/-- A chain in which an empty-named row has a *named ancestor*: ref 1
("a") → ref 2 ("") → ref 3 ("b", root). -/
def emptyMiddleChain : List FileEntry :=
  [ dirRow 1 (some 2) "a", dirRow 2 (some 3) "", dirRow 3 none "b" ]

/-- C6, counterexample.  The claim says the walk *stops* when the
looked-up name is empty or ".".  The code merely skips such a name and
keeps walking to the parent: on `emptyMiddleChain` the code returns
`b/a` (the ancestor past the empty name is collected), while the claim's
stopping rule yields `a`. -/
theorem C6_counterexample_empty_name_continues :
    reconstruct_path emptyMiddleChain 1 1 10 = ["b", "a"]
    ∧ reconstruct_path_spec emptyMiddleChain 1 1 10 = ["a"]
    ∧ reconstruct_path emptyMiddleChain 1 1 10
        ≠ reconstruct_path_spec emptyMiddleChain 1 1 10 := by
  refine ⟨by decide, by decide, by decide⟩

/-- C6, amended.  `reconstruct_path` walks the parent chain looking up
`(volume_id, file_ref) → (name, parent_ref)`; it stops when `parent_ref`
is NULL or the row is missing, but an empty or `"."` name is only
*skipped* (not collected) while the walk continues to the parent; the
collected names are returned reversed.  On the claim's example chain the
result is `Users/John/Documents/file.txt` as claimed. -/
theorem C6_reconstruct_path_amended :
    reconstruct_path exampleChain 1 400 10 = ["Users", "John", "Documents", "file.txt"]
    ∧ String.intercalate "/" (reconstruct_path exampleChain 1 400 10)
        = "Users/John/Documents/file.txt"
    ∧ (∀ (tbl : List FileEntry) (volume_id : Int) (fuel : Nat)
        (ref : Int) (comps : List String) (name : String) (parent : Option Int),
        lookup_name_parent tbl volume_id ref = some (name, parent) →
        (name = "" ∨ name = ".") →
        reconstructGo tbl volume_id (fuel + 1) (some ref) comps
          = reconstructGo tbl volume_id fuel parent comps)
    ∧ (∀ (tbl : List FileEntry) (volume_id : Int) (fuel : Nat)
        (ref : Int) (comps : List String),
        lookup_name_parent tbl volume_id ref = none →
        reconstructGo tbl volume_id (fuel + 1) (some ref) comps = comps)
    ∧ (∀ (tbl : List FileEntry) (volume_id : Int) (fuel : Nat) (comps : List String),
        reconstructGo tbl volume_id (fuel + 1) none comps = comps) := by
  refine ⟨by decide, by decide, ?_, ?_, ?_⟩
  · intro tbl volume_id fuel ref comps name parent hlook hname
    rw [reconstructGo, hlook]
    dsimp only
    have : ¬(name ≠ "" ∧ name ≠ ".") := by
      rcases hname with h | h <;> simp [h]
    rw [if_neg this]
  · intro tbl volume_id fuel ref comps hlook
    rw [reconstructGo, hlook]
  · intro tbl volume_id fuel comps
    rfl

/-- C6, witness for the amended theorem: the skip step applied at the
empty-named row of `emptyMiddleChain`. -/
theorem C6_reconstruct_path_amended_witness :
    reconstructGo emptyMiddleChain 1 (8 + 1) (some 2) ["a"]
      = reconstructGo emptyMiddleChain 1 8 (some 3) ["a"] :=
  C6_reconstruct_path_amended.2.2.1 emptyMiddleChain 1 8 2 ["a"] "" (some 3)
    (by decide) (Or.inl rfl)

/-! ## Claim C7: `search_files` (`db/ops.rs`) and the query layer

`search_files` runs `SELECT ... WHERE name LIKE ?1 LIMIT ?2` with the
pattern `%{query}%` (no `ESCAPE` clause) and `limit as i64`.  SQLite
`LIKE` is ASCII-case-insensitive; `%` matches any sequence, `_` one
character; a negative `LIMIT` means no limit.  The wildcard substitution
`* → %` / `? → _` lives in `convert_wildcards_to_sql` in
`search/query.rs` (the query-layer SQL builder), which `search_files`
does not call. -/

/-- ASCII lower-casing, as SQLite `LIKE` compares. -/
def charLower (c : Char) : Char :=
  if 'A' ≤ c ∧ c ≤ 'Z' then Char.ofNat (c.toNat + 32) else c

/-- SQLite `LIKE` matching; the fuel is structural (every step shrinks
pattern or text, so `pattern.length + text.length + 1` always suffices). -/
def likeGo : Nat → List Char → List Char → Bool
  | 0, _, _ => false
  | _ + 1, [], [] => true
  | _ + 1, [], _ :: _ => false
  | fuel + 1, '%' :: ps, s =>
      likeGo fuel ps s ||
        (match s with
         | [] => false
         | _ :: s2 => likeGo fuel ('%' :: ps) s2)
  | fuel + 1, '_' :: ps, c :: s2 =>
      let _ := c
      likeGo fuel ps s2
  | _ + 1, _ :: _, [] => false
  | fuel + 1, p :: ps, c :: s2 => (charLower p == charLower c) && likeGo fuel ps s2

/-- `name LIKE pattern` in SQLite. -/
def sqliteLike (pattern text : String) : Bool :=
  likeGo (pattern.length + text.length + 1) pattern.data text.data

/-- `search_files(conn, query, limit)`: filter by
`name LIKE '%' ++ query ++ '%'`, truncated by `LIMIT (limit as i64)`
(negative means unlimited). -/
def search_files (tbl : List FileEntry) (query : String) (limit : Nat) :
    List FileEntry :=
  let pattern := "%" ++ query ++ "%"
  let rows := tbl.filter (fun f => sqliteLike pattern f.name)
  let lim := toI64 limit
  if lim < 0 then rows else rows.take lim.toNat

/-- `convert_wildcards_to_sql` from `search/query.rs`: `*` → `%`,
`?` → `_`, escape `%`/`_`/`\`; wrap in `%..%` only when the input had no
wildcard. -/
def convert_wildcards_to_sql (pattern : String) : String :=
  let hasWildcards := pattern.data.any (fun c => c == '*' || c == '?')
  let body := pattern.data.foldl (fun acc c =>
    match c with
    | '*' => acc ++ ['%']
    | '?' => acc ++ ['_']
    | '%' => acc ++ ['\\', '%']
    | '_' => acc ++ ['\\', '_']
    | '\\' => acc ++ ['\\', '\\']
    | c => acc ++ [c]) ([] : List Char)
  if hasWildcards then String.mk body else String.mk ('%' :: body ++ ['%'])

/-- Follows the spec's words, for the refinement comparison only:
substitute `* → %`, `? → _` in the query, then match names by the
case-insensitive substring predicate, up to `limit` results. -/
def search_files_spec (tbl : List FileEntry) (query : String) (limit : Nat) :
    List FileEntry :=
  let subst := String.mk (query.data.map
    (fun c => if c = '*' then '%' else if c = '?' then '_' else c))
  (tbl.filter (fun f => sqliteLike ("%" ++ subst ++ "%") f.name)).take limit

/-- A row whose name matches `a*b` only after wildcard substitution. -/
def rowAXb : FileEntry :=
  { volume_id := 1, file_ref := some 1, parent_ref := some 0, name := "aXb",
    size := 0, modified := none, is_dir := false }

/-- C7, counterexample.  The claim says `search_files` matches the query
after `* → %` / `? → _` substitution.  The code passes the raw query into
`%query%`: for the query `a*b` and the name `aXb`, the substituted
reading matches (the spec-following predicate returns the row) but
`search_files` returns nothing, because its pattern demands a literal
`*`.  The substitution exists only in the query layer's
`convert_wildcards_to_sql`. -/
theorem C7_counterexample_no_wildcard_subst :
    search_files [rowAXb] "a*b" 10 = []
    ∧ search_files_spec [rowAXb] "a*b" 10 = [rowAXb]
    ∧ convert_wildcards_to_sql "a*b" = "a%b" := by
  refine ⟨by decide, by decide, by decide⟩

/-- C7, amended.  `search_files(query, limit)` returns at most `limit`
rows (for `limit` in the non-negative `i64` range), each drawn from the
table and matching `name LIKE '%' ++ query ++ '%'` with the query's
characters taken literally apart from SQL's own `%`/`_` — no `* → %` or
`? → _` substitution happens in `search_files`; that substitution is the
query layer's `convert_wildcards_to_sql`. -/
theorem C7_search_files_amended (tbl : List FileEntry) (query : String) (limit : Nat)
    (h : limit < 2 ^ 63) :
    (search_files tbl query limit).length ≤ limit
    ∧ ∀ f ∈ search_files tbl query limit,
        f ∈ tbl ∧ sqliteLike ("%" ++ query ++ "%") f.name = true := by
  have hmod : limit % 2 ^ 64 = limit :=
    Nat.mod_eq_of_lt (lt_trans h (by norm_num))
  have hlim : toI64 limit = (limit : Int) := by
    rw [toI64, hmod, if_pos]
    exact_mod_cast h
  have hnotneg : ¬toI64 limit < 0 := by
    rw [hlim]
    exact not_lt.mpr (Int.natCast_nonneg limit)
  have hform : search_files tbl query limit
      = (tbl.filter (fun f => sqliteLike ("%" ++ query ++ "%") f.name)).take limit := by
    rw [search_files]
    simp only [hlim, Int.toNat_natCast]
    rw [if_neg (not_lt.mpr (Int.natCast_nonneg limit))]
  constructor
  · rw [hform]
    exact List.length_take_le limit _
  · intro f hf
    rw [hform] at hf
    have hmem := List.mem_of_mem_take hf
    exact List.mem_filter.mp hmem

/-- C7, witness for the amended theorem at a concrete table and limit. -/
theorem C7_search_files_amended_witness :
    (search_files [rowAXb] "X" 10).length ≤ 10
    ∧ ∀ f ∈ search_files [rowAXb] "X" 10,
        f ∈ [rowAXb] ∧ sqliteLike ("%" ++ "X" ++ "%") f.name = true :=
  C7_search_files_amended [rowAXb] "X" 10 (by norm_num)

/-! ## Claim C9: the offline-retention sweep

`fat_reconciler.rs` calls `cleanup_old_offline_volumes(conn,
retention_days)` once per day, but no definition of that function (nor of
the volume-state storage it reads) exists under `src/` — `db/ops.rs`
defines neither it nor `update_volume_state`, and `db/schema.rs` has no
state column.  The function is therefore modelled from the specification
below. -/

/-- `VolumeState` from `lib.rs`. -/
inductive VolumeState where
  | online
  | offline (since : Int)
  | indexing
  | rescanning
  | disabled
deriving DecidableEq, Repr

/-- A volume's id together with its stored state. -/
structure VolumeStateRow where
  id : Int
  state : VolumeState
deriving DecidableEq, Repr

/-- Whether the volume owning `vid` has been offline for at least the
retention window at time `now`. -/
def volumeExpired (now : Int) (retention_days : Nat) (vols : List VolumeStateRow)
    (vid : Int) : Bool :=
  vols.any (fun v => v.id == vid &&
    match v.state with
    | VolumeState.offline since => decide (now - since ≥ (retention_days : Int) * 86400)
    | _ => false)

/-- Modelled from the spec: `cleanup_old_offline_volumes` is code of this
repository missing from `src/` (it is re-exported by `db/mod.rs` and
called from `fat_reconciler.rs`, but defined nowhere under `src/`).  Per
§4.7 it "deletes every File whose owning Volume has been `Offline` for at
least `retention_days`" and returns the deleted count. -/
def cleanup_old_offline_volumes (now : Int) (retention_days : Nat)
    (vols : List VolumeStateRow) (files : List FileEntry) : List FileEntry × Nat :=
  let kept := files.filter (fun f => ! volumeExpired now retention_days vols f.volume_id)
  (kept, files.length - kept.length)

theorem filter_length_split (l : List FileEntry) (p : FileEntry → Bool) :
    (l.filter p).length + (l.filter (fun x => ! p x)).length = l.length := by
  induction l with
  | nil => rfl
  | cons x xs ih =>
      by_cases hx : p x = true <;> simp [List.filter, hx] <;> omega

/-- C9.  The modelled sweep keeps exactly the files whose owning volume
is not expired-offline, deletes exactly those whose owning volume has
been `Offline` for at least `retention_days`, and returns their number. -/
theorem C9_cleanup_old_offline_volumes :
    (∀ (now : Int) (retention_days : Nat) (vols : List VolumeStateRow)
        (files : List FileEntry) (f : FileEntry),
      f ∈ (cleanup_old_offline_volumes now retention_days vols files).1
        ↔ f ∈ files ∧ volumeExpired now retention_days vols f.volume_id = false)
    ∧ (∀ (now : Int) (retention_days : Nat) (vols : List VolumeStateRow)
        (files : List FileEntry),
      (cleanup_old_offline_volumes now retention_days vols files).2
        = (files.filter
            (fun f => volumeExpired now retention_days vols f.volume_id)).length)
    ∧ (∀ (now : Int) (retention_days : Nat) (vols : List VolumeStateRow) (vid : Int),
      volumeExpired now retention_days vols vid = true
        ↔ ∃ v ∈ vols, v.id = vid ∧ ∃ since, v.state = VolumeState.offline since
            ∧ now - since ≥ (retention_days : Int) * 86400) := by
  refine ⟨?_, ?_, ?_⟩
  · intro now retention_days vols files f
    rw [cleanup_old_offline_volumes]
    simp [List.mem_filter]
  · intro now retention_days vols files
    rw [cleanup_old_offline_volumes]
    have := filter_length_split files
      (fun f => volumeExpired now retention_days vols f.volume_id)
    omega
  · intro now retention_days vols vid
    rw [volumeExpired, List.any_eq_true]
    constructor
    · rintro ⟨v, hv, hpred⟩
      rw [Bool.and_eq_true] at hpred
      refine ⟨v, hv, by simpa using hpred.1, ?_⟩
      rcases hstate : v.state with _ | since | _ | _ | _ <;> rw [hstate] at hpred <;>
        simp at hpred
      exact ⟨since, rfl, by simpa using hpred.2⟩
    · rintro ⟨v, hv, hid, since, hstate, hret⟩
      refine ⟨v, hv, ?_⟩
      rw [Bool.and_eq_true, hstate]
      exact ⟨by simp [hid], by simpa using hret⟩

/-! ## Claim C10: `insert_volume` on an existing drive letter

`volumes` has `id INTEGER PRIMARY KEY` (the rowid) and
`drive_letter TEXT UNIQUE`.  `INSERT OR REPLACE` allocates the new rowid
as one more than the largest existing rowid *before* the conflicting row
is deleted, deletes the row conflicting on `drive_letter`, inserts, and
`last_insert_rowid()` returns the fresh id (never 0, so the fallback
query in the Rust code is dead).  Files are a separate table that
`insert_volume` does not touch. -/

/-- A row of the `volumes` table (the columns the claim concerns). -/
structure VolumeRow where
  id : Int
  drive_letter : String
  volume_serial : String
  fs_type : String
deriving DecidableEq, Repr

/-- The largest rowid in the table (0 when empty, as for a fresh table). -/
def maxId (vols : List VolumeRow) : Int :=
  vols.foldl (fun m v => max m v.id) 0

/-- `insert_volume(conn, drive_letter, serial, fs_type)`. -/
def insert_volume (vols : List VolumeRow) (drive serial fs : String) :
    Int × List VolumeRow :=
  let newId := maxId vols + 1
  (newId,
    vols.filter (fun v => v.drive_letter != drive)
      ++ [{ id := newId, drive_letter := drive, volume_serial := serial,
            fs_type := fs }])

/-- `get_volume(conn, drive_letter)`. -/
def get_volume (vols : List VolumeRow) (drive : String) : Option VolumeRow :=
  vols.find? (fun v => v.drive_letter == drive)

theorem foldl_max_ge_init (vols : List VolumeRow) :
    ∀ acc : Int, acc ≤ vols.foldl (fun m v => max m v.id) acc := by
  induction vols with
  | nil => intro acc; exact le_refl _
  | cons v vs ih =>
      intro acc
      exact le_trans (le_max_left acc v.id) (ih (max acc v.id))

theorem foldl_max_ge_mem (vols : List VolumeRow) :
    ∀ (acc : Int) (v : VolumeRow), v ∈ vols →
      v.id ≤ vols.foldl (fun m v => max m v.id) acc := by
  induction vols with
  | nil => intro acc v hv; simp at hv
  | cons w ws ih =>
      intro acc v hv
      rcases List.mem_cons.mp hv with h | h
      · subst h
        exact le_trans (le_max_right acc v.id) (foldl_max_ge_init ws _)
      · exact ih _ v h

theorem le_maxId (vols : List VolumeRow) (v : VolumeRow) (hv : v ∈ vols) :
    v.id ≤ maxId vols :=
  foldl_max_ge_mem vols 0 v hv

theorem find?_append_left_none {p : VolumeRow → Bool} (l1 l2 : List VolumeRow)
    (h : ∀ x ∈ l1, p x = false) : (l1 ++ l2).find? p = l2.find? p := by
  induction l1 with
  | nil => rfl
  | cons x xs ih =>
      rw [List.cons_append, List.find?]
      rw [h x (List.mem_cons_self x xs)]
      exact ih (fun y hy => h y (List.mem_cons_of_mem x hy))

/-- C10.  A second `insert_volume` call with the same drive letter
replaces the existing row and returns a fresh id different from the first
call's id; `get_volume(drive)` afterwards returns the new id, the first
id is gone from the volumes table entirely, and any file row inserted
under the first id (files are untouched by `insert_volume`) is no longer
associated with the volume `get_volume` returns. -/
theorem C10_insert_volume_replaces (vols : List VolumeRow) (drive s1 f1 s2 f2 : String) :
    (insert_volume (insert_volume vols drive s1 f1).2 drive s2 f2).1
        ≠ (insert_volume vols drive s1 f1).1
    ∧ (get_volume (insert_volume (insert_volume vols drive s1 f1).2 drive s2 f2).2
          drive).map (fun v => v.id)
        = some (insert_volume (insert_volume vols drive s1 f1).2 drive s2 f2).1
    ∧ (∀ v ∈ (insert_volume (insert_volume vols drive s1 f1).2 drive s2 f2).2,
        v.id ≠ (insert_volume vols drive s1 f1).1)
    ∧ (∀ fr : FileEntry, fr.volume_id = (insert_volume vols drive s1 f1).1 →
        (get_volume (insert_volume (insert_volume vols drive s1 f1).2 drive s2 f2).2
            drive).map (fun v => v.id)
          ≠ some fr.volume_id) := by
  set id1 := (insert_volume vols drive s1 f1).1 with hid1
  set tbl1 := (insert_volume vols drive s1 f1).2 with htbl1
  set row1 : VolumeRow :=
    { id := id1, drive_letter := drive, volume_serial := s1, fs_type := f1 } with hrow1
  have htbl1_eq : tbl1 = vols.filter (fun v => v.drive_letter != drive) ++ [row1] := rfl
  have hrow1_mem : row1 ∈ tbl1 := by
    rw [htbl1_eq]
    exact List.mem_append_right _ (List.mem_singleton.mpr rfl)
  have hid1_le : id1 ≤ maxId tbl1 := le_maxId tbl1 row1 hrow1_mem
  have hid2_gt : id1 < (insert_volume tbl1 drive s2 f2).1 := by
    rw [insert_volume]
    omega
  have hne : (insert_volume tbl1 drive s2 f2).1 ≠ id1 := ne_of_gt hid2_gt
  set id2 := (insert_volume tbl1 drive s2 f2).1 with hid2
  set row2 : VolumeRow :=
    { id := id2, drive_letter := drive, volume_serial := s2, fs_type := f2 } with hrow2
  have htbl2_eq : (insert_volume tbl1 drive s2 f2).2
      = tbl1.filter (fun v => v.drive_letter != drive) ++ [row2] := rfl
  have hget : get_volume (insert_volume tbl1 drive s2 f2).2 drive = some row2 := by
    rw [get_volume, htbl2_eq,
      find?_append_left_none _ _ (fun x hx => ?_), List.find?]
    · simp
    · have := (List.mem_filter.mp hx).2
      simpa using this
  refine ⟨hne, by rw [hget]; rfl, ?_, ?_⟩
  · intro v hv
    rw [htbl2_eq] at hv
    rcases List.mem_append.mp hv with h | h
    · have hv1 : v ∈ tbl1 := (List.mem_filter.mp h).1
      have hvd : v.drive_letter ≠ drive := by
        have := (List.mem_filter.mp h).2
        simpa using this
      rw [htbl1_eq] at hv1
      rcases List.mem_append.mp hv1 with h1 | h1
      · have hv0 : v ∈ vols := (List.mem_filter.mp h1).1
        have : v.id ≤ maxId vols := le_maxId vols v hv0
        rw [hid1]
        rw [insert_volume]
        intro hcontr
        omega
      · have hveq := List.mem_singleton.mp h1
        rw [hveq] at hvd
        exact absurd rfl hvd
    · rw [List.mem_singleton.mp h]
      exact hne
  · intro fr hfr
    rw [hget, hfr]
    intro hcontr
    have : id2 = id1 := by
      have := Option.some.inj hcontr
      simpa [row2] using this
    exact hne this

/-- C10, witness: the no-old-id conjunct applied to the surviving row of
two concrete inserts at the same drive letter. -/
theorem C10_insert_volume_replaces_witness :
    ({ id := 2, drive_letter := "C:", volume_serial := "BBBB",
        fs_type := "NTFS" } : VolumeRow).id
      ≠ (insert_volume [] "C:" "AAAA" "NTFS").1 :=
  (C10_insert_volume_replaces [] "C:" "AAAA" "NTFS" "BBBB" "NTFS").2.2.1
    { id := 2, drive_letter := "C:", volume_serial := "BBBB", fs_type := "NTFS" }
    (by decide)

end BRindeX
